import Mathlib

/-!
Verification of the double-precision approximation facade (`F64Ext` for `f64`,
src/f64ext.rs) of the micromath crate.

The facade realises every `f64` operation as: narrow the operand(s) to `f32`
(Rust `as f32`, IEEE-754 round-to-nearest-even with overflow to infinity),
invoke the single-precision provider (`crate::f32ext::F32Ext`), and widen the
`f32` result back to `f64` (Rust `as f64`, exact).

We model IEEE-754 values at the bit-field level: a float is a sign bit, a
biased exponent and a fraction.  Widening and narrowing are translated from
the semantics of the Rust float casts.  The single-precision provider is not
under src/ (only `f64ext.rs` is); it is kept abstract as a structure of
operations, and the few provider operations individual claims depend on are
modelled from the spec.
-/

/-- IEEE-754 binary32 value as bit fields: sign, biased exponent (8 bits,
well-formed when < 256), fraction (23 bits, well-formed when < 2^23). -/
structure F32 where
  sign : Bool
  ex : Nat
  frac : Nat
deriving DecidableEq, Repr

/-- IEEE-754 binary64 value as bit fields: sign, biased exponent (11 bits,
well-formed when < 2048), fraction (52 bits, well-formed when < 2^52). -/
structure F64 where
  sign : Bool
  ex : Nat
  frac : Nat
deriving DecidableEq, Repr

/-- Well-formedness of the binary32 bit fields. -/
def F32.wf (s : F32) : Prop := s.ex < 256 ∧ s.frac < 2 ^ 23

instance (s : F32) : Decidable s.wf := inferInstanceAs (Decidable (_ ∧ _))

/-- Well-formedness of the binary64 bit fields. -/
def F64.wf (x : F64) : Prop := x.ex < 2048 ∧ x.frac < 2 ^ 52

instance (x : F64) : Decidable x.wf := inferInstanceAs (Decidable (_ ∧ _))

/-- A binary32 value is a NaN when its exponent field is all ones and its
fraction is nonzero. -/
def F32.isNan (s : F32) : Prop := s.ex = 255 ∧ s.frac ≠ 0

instance (s : F32) : Decidable s.isNan := inferInstanceAs (Decidable (_ ∧ _))

/-- A binary32 value is finite when its exponent field is not all ones. -/
def F32.isFinite (s : F32) : Prop := s.ex ≠ 255

instance (s : F32) : Decidable s.isFinite := inferInstanceAs (Decidable (_ ≠ _))

/-- A binary64 value is a NaN when its exponent field is all ones and its
fraction is nonzero. -/
def F64.isNan (x : F64) : Prop := x.ex = 2047 ∧ x.frac ≠ 0

instance (x : F64) : Decidable x.isNan := inferInstanceAs (Decidable (_ ∧ _))

/-- A binary64 value is finite when its exponent field is not all ones. -/
def F64.isFinite (x : F64) : Prop := x.ex ≠ 2047

instance (x : F64) : Decidable x.isFinite := inferInstanceAs (Decidable (_ ≠ _))

/-- Integer significand of a finite binary32 value (with the hidden bit for
normal numbers). -/
def F32.sig (s : F32) : Nat := if s.ex = 0 then s.frac else 2 ^ 23 + s.frac

/-- Exponent of the least significant bit of the significand of a finite
binary32 value: its numeric value is `sig * 2 ^ expLsb`. -/
def F32.expLsb (s : F32) : Int := if s.ex = 0 then -149 else (s.ex : Int) - 150

/-- Signed integer significand of a finite binary32 value. -/
def F32.intVal (s : F32) : Int := if s.sign then -(s.sig : Int) else (s.sig : Int)

/-- Numeric value of a finite binary32 value as a rational. -/
def F32.toRat (s : F32) : ℚ := (s.intVal : ℚ) * (2 : ℚ) ^ s.expLsb

/-- Integer significand of a finite binary64 value (with the hidden bit for
normal numbers). -/
def F64.sig (x : F64) : Nat := if x.ex = 0 then x.frac else 2 ^ 52 + x.frac

/-- Exponent of the least significant bit of the significand of a finite
binary64 value: its numeric value is `sig * 2 ^ expLsb`. -/
def F64.expLsb (x : F64) : Int := if x.ex = 0 then -1074 else (x.ex : Int) - 1075

/-- Signed integer significand of a finite binary64 value. -/
def F64.intVal (x : F64) : Int := if x.sign then -(x.sig : Int) else (x.sig : Int)

/-- Numeric value of a finite binary64 value as a rational. -/
def F64.toRat (x : F64) : ℚ := (x.intVal : ℚ) * (2 : ℚ) ^ x.expLsb

/-- Fuel-driven bit-length helper; the fuel only bounds the recursion depth. -/
def bitLenAux : Nat → Nat → Nat
  | 0, _ => 0
  | fuel + 1, m => if m = 0 then 0 else bitLenAux fuel (m / 2) + 1

/-- Number of bits of a natural number (`0` for `0`); `bitLen m = k + 1`
exactly when `2 ^ k ≤ m < 2 ^ (k + 1)`.  Defined by structural recursion on a
fuel argument so that the kernel can evaluate it. -/
def bitLen (m : Nat) : Nat := bitLenAux m m

/-- Round-to-nearest-even of a positive dyadic magnitude `m * 2 ^ e` to the
precision available in binary32 at that magnitude (24 significant bits for
values at least `2 ^ (-126)`, fewer in the subnormal range).  Returns the
rounded significand together with the exponent of its least significant bit. -/
def roundPos (m : Nat) (e : Int) : Nat × Int :=
  let n : Int := (bitLen m : Int)
  let E : Int := n - 1 + e
  let p : Int := if -126 ≤ E then 24 else 150 + E
  let shift : Int := n - p
  if 0 < shift then
    let s := shift.toNat
    let q := m / 2 ^ s
    let r := m % 2 ^ s
    (if 2 ^ (s - 1) < r ∨ (r = 2 ^ (s - 1) ∧ q % 2 = 1) then q + 1 else q, e + shift)
  else (m, e)

/-- Encode an exactly representable dyadic magnitude `m * 2 ^ e` (at most 24
significant bits, least significant bit not below `2 ^ (-149)`) as a binary32
bit pattern, overflowing to infinity above the largest finite exponent. -/
def encodeF32 (sign : Bool) (m : Nat) (e : Int) : F32 :=
  if m = 0 then ⟨sign, 0, 0⟩
  else
    let E : Int := (bitLen m : Int) - 1 + e
    if 127 < E then ⟨sign, 255, 0⟩
    else if -126 ≤ E then
      ⟨sign, (E + 127).toNat,
        (if bitLen m ≤ 24 then m * 2 ^ (24 - bitLen m) else m / 2 ^ (bitLen m - 24)) - 2 ^ 23⟩
    else ⟨sign, 0, m * 2 ^ ((e + 149).toNat)⟩

/-- Round the signed dyadic value `(-1) ^ sign * m * 2 ^ e` to a binary32
value, IEEE-754 round-to-nearest, ties to even, as performed by the Rust
`f64 as f32` cast on finite values. -/
def roundDyadicF32 (sign : Bool) (m : Nat) (e : Int) : F32 :=
  if m = 0 then ⟨sign, 0, 0⟩
  else encodeF32 sign (roundPos m e).1 (roundPos m e).2

/-- Widening conversion (Rust `as f64` on an `f32` value): exact, lossless.
Normal numbers rebias the exponent and zero-extend the fraction; subnormals
are normalised; infinities and NaNs map to the corresponding binary64
patterns, NaN payloads shifted into the high fraction bits. -/
def widen (s : F32) : F64 :=
  if s.ex = 255 then ⟨s.sign, 2047, s.frac * 2 ^ 29⟩
  else if s.ex = 0 then
    if s.frac = 0 then ⟨s.sign, 0, 0⟩
    else ⟨s.sign, bitLen s.frac + 873, (s.frac - 2 ^ (bitLen s.frac - 1)) * 2 ^ (53 - bitLen s.frac)⟩
  else ⟨s.sign, s.ex + 896, s.frac * 2 ^ 29⟩

/-- Narrowing conversion (Rust `as f32` on an `f64` value): round to nearest,
ties to even; overflow goes to infinity; NaNs stay NaNs with the payload
truncated to the high fraction bits and the quiet bit set (as on the
mainstream hardware the crate targets). -/
def narrow (x : F64) : F32 :=
  if x.ex = 2047 then
    if x.frac = 0 then ⟨x.sign, 255, 0⟩
    else ⟨x.sign, 255, if 2 ^ 22 ≤ x.frac / 2 ^ 29 then x.frac / 2 ^ 29 else x.frac / 2 ^ 29 + 2 ^ 22⟩
  else roundDyadicF32 x.sign x.sig x.expLsb

/-- The single-precision capability provider, mirroring the `F32Ext` trait of
the crate (one field per operation, same names and arities).  Its
implementations live in `crate::f32ext`, outside the code under
verification, so it is kept abstract. -/
structure F32Provider where
  abs : F32 → F32
  asin : F32 → F32
  acos : F32 → F32
  atan : F32 → F32
  atan_norm : F32 → F32
  atan2 : F32 → F32 → F32
  atan2_norm : F32 → F32 → F32
  ceil : F32 → F32
  cos : F32 → F32
  div_euclid : F32 → F32 → F32
  floor : F32 → F32
  hypot : F32 → F32 → F32
  inv : F32 → F32
  invsqrt : F32 → F32
  rem_euclid : F32 → F32 → F32
  sin : F32 → F32
  sqrt : F32 → F32
  tan : F32 → F32
  trunc : F32 → F32
  round : F32 → F32
  fract : F32 → F32
  copysign : F32 → F32 → F32
  ln : F32 → F32
  exp : F32 → F32
  log : F32 → F32 → F32
  log2 : F32 → F32
  log10 : F32 → F32
  powf : F32 → F32 → F32
  powi : F32 → Int → F32

namespace F64Ext

/-- Translation of `fn abs(self) -> f64 { (self as f32).abs() as _ }`. -/
def abs (P : F32Provider) (x : F64) : F64 := widen (P.abs (narrow x))

/-- Translation of `fn asin(self) -> f64 { (self as f32).asin() as _ }`. -/
def asin (P : F32Provider) (x : F64) : F64 := widen (P.asin (narrow x))

/-- Translation of `fn acos(self) -> f64 { (self as f32).acos() as _ }`. -/
def acos (P : F32Provider) (x : F64) : F64 := widen (P.acos (narrow x))

/-- Translation of `fn atan(self) -> f64 { (self as f32).atan() as _ }`. -/
def atan (P : F32Provider) (x : F64) : F64 := widen (P.atan (narrow x))

/-- Translation of `fn atan_norm(self) -> f64 { (self as f32).atan_norm() as _ }`. -/
def atan_norm (P : F32Provider) (x : F64) : F64 := widen (P.atan_norm (narrow x))

/-- Translation of `fn atan2(self, other: f64) -> f64 { (self as f32).atan2(other as f32) as _ }`. -/
def atan2 (P : F32Provider) (x y : F64) : F64 := widen (P.atan2 (narrow x) (narrow y))

/-- Translation of `fn atan2_norm(self, other: f64) -> f64 { (self as f32).atan2_norm(other as f32) as _ }`. -/
def atan2_norm (P : F32Provider) (x y : F64) : F64 := widen (P.atan2_norm (narrow x) (narrow y))

/-- Translation of `fn ceil(self) -> f64 { (self as f32).ceil() as _ }`. -/
def ceil (P : F32Provider) (x : F64) : F64 := widen (P.ceil (narrow x))

/-- Translation of `fn cos(self) -> f64 { (self as f32).cos() as _ }`. -/
def cos (P : F32Provider) (x : F64) : F64 := widen (P.cos (narrow x))

/-- Translation of `fn div_euclid(self, other: f64) -> f64 { (self as f32).div_euclid(other as f32) as _ }`. -/
def div_euclid (P : F32Provider) (x y : F64) : F64 := widen (P.div_euclid (narrow x) (narrow y))

/-- Translation of `fn floor(self) -> f64 { (self as f32).floor() as _ }`. -/
def floor (P : F32Provider) (x : F64) : F64 := widen (P.floor (narrow x))

/-- Translation of `fn hypot(self, other: f64) -> f64 { (self as f32).hypot(other as f32) as _ }`. -/
def hypot (P : F32Provider) (x y : F64) : F64 := widen (P.hypot (narrow x) (narrow y))

/-- Translation of `fn inv(self) -> f64 { (self as f32).inv() as _ }`. -/
def inv (P : F32Provider) (x : F64) : F64 := widen (P.inv (narrow x))

/-- Translation of `fn invsqrt(self) -> f64 { (self as f32).invsqrt() as _ }`. -/
def invsqrt (P : F32Provider) (x : F64) : F64 := widen (P.invsqrt (narrow x))

/-- Translation of `fn rem_euclid(self, other: f64) -> f64 { (self as f32).rem_euclid(other as f32) as _ }`. -/
def rem_euclid (P : F32Provider) (x y : F64) : F64 := widen (P.rem_euclid (narrow x) (narrow y))

/-- Translation of `fn sin(self) -> f64 { (self as f32).sin() as _ }`. -/
def sin (P : F32Provider) (x : F64) : F64 := widen (P.sin (narrow x))

/-- Translation of `fn sqrt(self) -> f64 { (self as f32).sqrt() as _ }`. -/
def sqrt (P : F32Provider) (x : F64) : F64 := widen (P.sqrt (narrow x))

/-- Translation of `fn tan(self) -> f64 { (self as f32).tan() as _ }`. -/
def tan (P : F32Provider) (x : F64) : F64 := widen (P.tan (narrow x))

/-- Translation of `fn trunc(self) -> f64 { (self as f32).trunc() as _ }`. -/
def trunc (P : F32Provider) (x : F64) : F64 := widen (P.trunc (narrow x))

/-- Translation of `fn round(self) -> f64 { (self as f32).round() as _ }`. -/
def round (P : F32Provider) (x : F64) : F64 := widen (P.round (narrow x))

/-- Translation of `fn fract(self) -> f64 { (self as f32).fract() as _ }`. -/
def fract (P : F32Provider) (x : F64) : F64 := widen (P.fract (narrow x))

/-- Translation of `fn copysign(self, sign: f64) -> f64 { (self as f32).copysign(sign as f32) as _ }`. -/
def copysign (P : F32Provider) (x y : F64) : F64 := widen (P.copysign (narrow x) (narrow y))

/-- Translation of `fn ln(self) -> f64 { (self as f32).ln() as _ }`. -/
def ln (P : F32Provider) (x : F64) : F64 := widen (P.ln (narrow x))

/-- Translation of `fn exp(self) -> f64 { (self as f32).exp() as _ }`. -/
def exp (P : F32Provider) (x : F64) : F64 := widen (P.exp (narrow x))

/-- Translation of `fn log(self, base: f64) -> f64 { (self as f32).log(base as f32) as _ }`. -/
def log (P : F32Provider) (x y : F64) : F64 := widen (P.log (narrow x) (narrow y))

/-- Translation of `fn log2(self) -> f64 { (self as f32).log2() as _ }`. -/
def log2 (P : F32Provider) (x : F64) : F64 := widen (P.log2 (narrow x))

/-- Translation of `fn log10(self) -> f64 { (self as f32).log10() as _ }`. -/
def log10 (P : F32Provider) (x : F64) : F64 := widen (P.log10 (narrow x))

/-- Translation of `fn powf(self, n: f64) -> f64 { (self as f32).powf(n as f32) as _ }`. -/
def powf (P : F32Provider) (x y : F64) : F64 := widen (P.powf (narrow x) (narrow y))

/-- Translation of `fn powi(self, n: i32) -> f64 { (self as f32).powi(n) as _ }`;
the integer exponent is passed through unchanged. -/
def powi (P : F32Provider) (x : F64) (n : Int) : F64 := widen (P.powi (narrow x) n)

end F64Ext

/-- Follows the spec's words for a unary operation: narrow the
double-precision operand to single precision, invoke the single-precision
capability, widen the single-precision result back to double precision. -/
def specNarrow1 (f : F32 → F32) : F64 → F64 := fun x => widen (f (narrow x))

/-- Follows the spec's words for a binary operation: narrow each
double-precision operand, invoke the single-precision capability, widen the
result. -/
def specNarrow2 (f : F32 → F32 → F32) : F64 → F64 → F64 :=
  fun x y => widen (f (narrow x) (narrow y))

/-- Follows the spec's words for `powi`: narrow the value operand, pass the
signed integer exponent unchanged, widen the result. -/
def specNarrowPowi (f : F32 → Int → F32) : F64 → Int → F64 :=
  fun x n => widen (f (narrow x) n)

/-- The canonical quiet binary32 NaN. -/
def nan32 : F32 := ⟨false, 255, 2 ^ 22⟩

/-- Modelled from the spec: the provider's `abs` (in `crate::f32ext`, not
under src/) performs exact sign-stripping on its single-precision operand. -/
def absF32M (s : F32) : F32 := ⟨false, s.ex, s.frac⟩

/-- Modelled from the spec: the provider's `copysign` (in `crate::f32ext`,
not under src/) copies the sign of the second operand onto the magnitude of
the first, an exact sign transfer. -/
def copysignF32M (a s : F32) : F32 := ⟨s.sign, a.ex, a.frac⟩

/-- Modelled from the spec: the provider's `trunc` (in `crate::f32ext`, not
under src/) retrieves the whole number part with sign; infinities and NaNs
pass through. -/
def truncF32M (s : F32) : F32 :=
  if s.ex = 255 then s
  else if 0 ≤ s.expLsb then s
  else roundDyadicF32 s.sign (s.sig / 2 ^ (-s.expLsb).toNat) 0

/-- Common scale exponent used to compare two finite binary32 operands as
integers: the smaller of the two least-significant-bit exponents. -/
def euE (a b : F32) : Int := min a.expLsb b.expLsb

/-- First operand of Euclidean division as an integer at scale `euE`:
the numeric value of `a` is `euA a b * 2 ^ euE a b`. -/
def euA (a b : F32) : Int := a.intVal * 2 ^ (a.expLsb - euE a b).toNat

/-- Second operand of Euclidean division as an integer at scale `euE`:
the numeric value of `b` is `euB a b * 2 ^ euE a b`. -/
def euB (a b : F32) : Int := b.intVal * 2 ^ (b.expLsb - euE a b).toNat

/-- Exact Euclidean quotient of the numeric values of two finite binary32
operands (an integer, so independent of the common scale). -/
def euQ (a b : F32) : Int := euA a b / euB a b

/-- Exact least nonnegative remainder of the numeric values at scale `euE`:
the exact remainder of `a` modulo `b` is `euR a b * 2 ^ euE a b`. -/
def euR (a b : F32) : Int := euA a b % euB a b

/-- Modelled from the spec: the provider's `div_euclid` (in `crate::f32ext`,
not under src/) calculates Euclidean division, the matching method for
`rem_euclid`: the exact Euclidean quotient, rounded to binary32; non-finite
operands and a zero divisor propagate NaN. -/
def divEuclidF32M (a b : F32) : F32 :=
  if a.isFinite ∧ b.isFinite ∧ b.sig ≠ 0 then
    roundDyadicF32 (decide (euQ a b < 0)) (euQ a b).natAbs 0
  else nan32

/-- Modelled from the spec: the provider's `rem_euclid` (in `crate::f32ext`,
not under src/) calculates the least nonnegative remainder of `self (mod
other)`: the exact Euclidean remainder, rounded to binary32; non-finite
operands and a zero divisor propagate NaN. -/
def remEuclidF32M (a b : F32) : F32 :=
  if a.isFinite ∧ b.isFinite ∧ b.sig ≠ 0 then
    roundDyadicF32 false (euR a b).toNat (euE a b)
  else nan32

/-- Provider instance whose operations all return positive zero; used to
instantiate theorems that hold for every well-behaved provider. -/
def zeroProvider : F32Provider where
  abs _ := ⟨false, 0, 0⟩
  asin _ := ⟨false, 0, 0⟩
  acos _ := ⟨false, 0, 0⟩
  atan _ := ⟨false, 0, 0⟩
  atan_norm _ := ⟨false, 0, 0⟩
  atan2 _ _ := ⟨false, 0, 0⟩
  atan2_norm _ _ := ⟨false, 0, 0⟩
  ceil _ := ⟨false, 0, 0⟩
  cos _ := ⟨false, 0, 0⟩
  div_euclid _ _ := ⟨false, 0, 0⟩
  floor _ := ⟨false, 0, 0⟩
  hypot _ _ := ⟨false, 0, 0⟩
  inv _ := ⟨false, 0, 0⟩
  invsqrt _ := ⟨false, 0, 0⟩
  rem_euclid _ _ := ⟨false, 0, 0⟩
  sin _ := ⟨false, 0, 0⟩
  sqrt _ := ⟨false, 0, 0⟩
  tan _ := ⟨false, 0, 0⟩
  trunc _ := ⟨false, 0, 0⟩
  round _ := ⟨false, 0, 0⟩
  fract _ := ⟨false, 0, 0⟩
  copysign _ _ := ⟨false, 0, 0⟩
  ln _ := ⟨false, 0, 0⟩
  exp _ := ⟨false, 0, 0⟩
  log _ _ := ⟨false, 0, 0⟩
  log2 _ := ⟨false, 0, 0⟩
  log10 _ := ⟨false, 0, 0⟩
  powf _ _ := ⟨false, 0, 0⟩
  powi _ _ := ⟨false, 0, 0⟩

/-- Concrete provider carrying the spec-modelled exact operations (`abs`,
`copysign`, `trunc`, `div_euclid`, `rem_euclid`).  The remaining operations
are the crate's approximation polynomials, which are out of scope for the
spec (provider internals are opaque); they are modelled as argument
passthrough and no theorem depends on their values. -/
def Mprov : F32Provider where
  abs := absF32M
  asin a := a
  acos a := a
  atan a := a
  atan_norm a := a
  atan2 a _ := a
  atan2_norm a _ := a
  ceil a := a
  cos a := a
  div_euclid := divEuclidF32M
  floor a := a
  hypot a _ := a
  inv a := a
  invsqrt a := a
  rem_euclid := remEuclidF32M
  sin a := a
  sqrt a := a
  tan a := a
  trunc := truncF32M
  round a := a
  fract a := a
  copysign := copysignF32M
  ln a := a
  exp a := a
  log a _ := a
  log2 a := a
  log10 a := a
  powf a _ := a
  powi a _ := a

/-- Follows the spec's words: the exact double-precision absolute value of a
binary64 bit pattern, i.e. the same value with the sign bit stripped. -/
def F64.absExact (x : F64) : F64 := ⟨false, x.ex, x.frac⟩

/-- A binary32 value is well-formed and quiet: the bit fields are in range
and, when it is a NaN, its quiet bit is set (as for every NaN produced by
IEEE-754 arithmetic on the targeted hardware). -/
def F32.wfq (s : F32) : Prop := s.wf ∧ (s.isNan → 2 ^ 22 ≤ s.frac)

instance (s : F32) : Decidable s.wfq := inferInstanceAs (Decidable (_ ∧ _))

/-- A provider is well-behaved when each operation returns a well-formed,
quiet binary32 value. -/
def F32Provider.Wf (P : F32Provider) : Prop :=
  ∀ (a b : F32) (n : Int),
    (P.abs a).wfq ∧ (P.asin a).wfq ∧ (P.acos a).wfq ∧ (P.atan a).wfq ∧
    (P.atan_norm a).wfq ∧ (P.atan2 a b).wfq ∧ (P.atan2_norm a b).wfq ∧
    (P.ceil a).wfq ∧ (P.cos a).wfq ∧ (P.div_euclid a b).wfq ∧ (P.floor a).wfq ∧
    (P.hypot a b).wfq ∧ (P.inv a).wfq ∧ (P.invsqrt a).wfq ∧
    (P.rem_euclid a b).wfq ∧ (P.sin a).wfq ∧ (P.sqrt a).wfq ∧ (P.tan a).wfq ∧
    (P.trunc a).wfq ∧ (P.round a).wfq ∧ (P.fract a).wfq ∧
    (P.copysign a b).wfq ∧ (P.ln a).wfq ∧ (P.exp a).wfq ∧ (P.log a b).wfq ∧
    (P.log2 a).wfq ∧ (P.log10 a).wfq ∧ (P.powf a b).wfq ∧ (P.powi a n).wfq

/-- A binary64 value survives the narrow-then-widen round trip unchanged. -/
def roundtripF64 (r : F64) : Prop := widen (narrow r) = r

/-- IEEE-754 comparison `x >= 0` on a binary64 value: false for NaN, and
otherwise decided by the numeric value (so both zeroes qualify). -/
def F64.ge0 (x : F64) : Prop := ¬ x.isNan ∧ 0 ≤ x.toRat

/-- Statement of the delegation refinement: every facade operation equals the
spec-side narrow-delegate-widen composition of the corresponding provider
capability, for the given provider and operands. -/
def DelegationEq (P : F32Provider) (x y : F64) (n : Int) : Prop :=
  F64Ext.abs P x = specNarrow1 P.abs x ∧
  F64Ext.asin P x = specNarrow1 P.asin x ∧
  F64Ext.acos P x = specNarrow1 P.acos x ∧
  F64Ext.atan P x = specNarrow1 P.atan x ∧
  F64Ext.atan_norm P x = specNarrow1 P.atan_norm x ∧
  F64Ext.atan2 P x y = specNarrow2 P.atan2 x y ∧
  F64Ext.atan2_norm P x y = specNarrow2 P.atan2_norm x y ∧
  F64Ext.ceil P x = specNarrow1 P.ceil x ∧
  F64Ext.cos P x = specNarrow1 P.cos x ∧
  F64Ext.div_euclid P x y = specNarrow2 P.div_euclid x y ∧
  F64Ext.floor P x = specNarrow1 P.floor x ∧
  F64Ext.hypot P x y = specNarrow2 P.hypot x y ∧
  F64Ext.inv P x = specNarrow1 P.inv x ∧
  F64Ext.invsqrt P x = specNarrow1 P.invsqrt x ∧
  F64Ext.rem_euclid P x y = specNarrow2 P.rem_euclid x y ∧
  F64Ext.sin P x = specNarrow1 P.sin x ∧
  F64Ext.sqrt P x = specNarrow1 P.sqrt x ∧
  F64Ext.tan P x = specNarrow1 P.tan x ∧
  F64Ext.trunc P x = specNarrow1 P.trunc x ∧
  F64Ext.round P x = specNarrow1 P.round x ∧
  F64Ext.fract P x = specNarrow1 P.fract x ∧
  F64Ext.copysign P x y = specNarrow2 P.copysign x y ∧
  F64Ext.ln P x = specNarrow1 P.ln x ∧
  F64Ext.exp P x = specNarrow1 P.exp x ∧
  F64Ext.log P x y = specNarrow2 P.log x y ∧
  F64Ext.log2 P x = specNarrow1 P.log2 x ∧
  F64Ext.log10 P x = specNarrow1 P.log10 x ∧
  F64Ext.powf P x y = specNarrow2 P.powf x y ∧
  F64Ext.powi P x n = specNarrowPowi P.powi x n

/-- Statement that every facade operation returns a double-precision value
that survives the narrow-then-widen round trip unchanged, for the given
provider and operands. -/
def RoundTripAll (P : F32Provider) (x y : F64) (n : Int) : Prop :=
  roundtripF64 (F64Ext.abs P x) ∧ roundtripF64 (F64Ext.asin P x) ∧
  roundtripF64 (F64Ext.acos P x) ∧ roundtripF64 (F64Ext.atan P x) ∧
  roundtripF64 (F64Ext.atan_norm P x) ∧ roundtripF64 (F64Ext.atan2 P x y) ∧
  roundtripF64 (F64Ext.atan2_norm P x y) ∧ roundtripF64 (F64Ext.ceil P x) ∧
  roundtripF64 (F64Ext.cos P x) ∧ roundtripF64 (F64Ext.div_euclid P x y) ∧
  roundtripF64 (F64Ext.floor P x) ∧ roundtripF64 (F64Ext.hypot P x y) ∧
  roundtripF64 (F64Ext.inv P x) ∧ roundtripF64 (F64Ext.invsqrt P x) ∧
  roundtripF64 (F64Ext.rem_euclid P x y) ∧ roundtripF64 (F64Ext.sin P x) ∧
  roundtripF64 (F64Ext.sqrt P x) ∧ roundtripF64 (F64Ext.tan P x) ∧
  roundtripF64 (F64Ext.trunc P x) ∧ roundtripF64 (F64Ext.round P x) ∧
  roundtripF64 (F64Ext.fract P x) ∧ roundtripF64 (F64Ext.copysign P x y) ∧
  roundtripF64 (F64Ext.ln P x) ∧ roundtripF64 (F64Ext.exp P x) ∧
  roundtripF64 (F64Ext.log P x y) ∧ roundtripF64 (F64Ext.log2 P x) ∧
  roundtripF64 (F64Ext.log10 P x) ∧ roundtripF64 (F64Ext.powf P x y) ∧
  roundtripF64 (F64Ext.powi P x n)

/-- Statement that the facade is total and performs no validation: every
operation is defined on every input (NaN, infinite and out-of-domain operands
included) and equals the widened provider result there; provider NaN results
for illegal inputs (such as `asin` outside its domain) propagate to the
caller as NaN; and with the spec-modelled provider, a divisor that narrows to
zero yields NaN rather than an error. -/
def NoFaultProp (P : F32Provider) (x y : F64) (n : Int) : Prop :=
  (F64Ext.abs P x = widen (P.abs (narrow x))) ∧
  (F64Ext.asin P x = widen (P.asin (narrow x))) ∧
  (F64Ext.acos P x = widen (P.acos (narrow x))) ∧
  (F64Ext.atan P x = widen (P.atan (narrow x))) ∧
  (F64Ext.atan_norm P x = widen (P.atan_norm (narrow x))) ∧
  (F64Ext.atan2 P x y = widen (P.atan2 (narrow x) (narrow y))) ∧
  (F64Ext.atan2_norm P x y = widen (P.atan2_norm (narrow x) (narrow y))) ∧
  (F64Ext.ceil P x = widen (P.ceil (narrow x))) ∧
  (F64Ext.cos P x = widen (P.cos (narrow x))) ∧
  (F64Ext.div_euclid P x y = widen (P.div_euclid (narrow x) (narrow y))) ∧
  (F64Ext.floor P x = widen (P.floor (narrow x))) ∧
  (F64Ext.hypot P x y = widen (P.hypot (narrow x) (narrow y))) ∧
  (F64Ext.inv P x = widen (P.inv (narrow x))) ∧
  (F64Ext.invsqrt P x = widen (P.invsqrt (narrow x))) ∧
  (F64Ext.rem_euclid P x y = widen (P.rem_euclid (narrow x) (narrow y))) ∧
  (F64Ext.sin P x = widen (P.sin (narrow x))) ∧
  (F64Ext.sqrt P x = widen (P.sqrt (narrow x))) ∧
  (F64Ext.tan P x = widen (P.tan (narrow x))) ∧
  (F64Ext.trunc P x = widen (P.trunc (narrow x))) ∧
  (F64Ext.round P x = widen (P.round (narrow x))) ∧
  (F64Ext.fract P x = widen (P.fract (narrow x))) ∧
  (F64Ext.copysign P x y = widen (P.copysign (narrow x) (narrow y))) ∧
  (F64Ext.ln P x = widen (P.ln (narrow x))) ∧
  (F64Ext.exp P x = widen (P.exp (narrow x))) ∧
  (F64Ext.log P x y = widen (P.log (narrow x) (narrow y))) ∧
  (F64Ext.log2 P x = widen (P.log2 (narrow x))) ∧
  (F64Ext.log10 P x = widen (P.log10 (narrow x))) ∧
  (F64Ext.powf P x y = widen (P.powf (narrow x) (narrow y))) ∧
  (F64Ext.powi P x n = widen (P.powi (narrow x) n)) ∧
  ((P.asin (narrow x)).isNan → (F64Ext.asin P x).isNan) ∧
  ((P.div_euclid (narrow x) (narrow y)).isNan → (F64Ext.div_euclid P x y).isNan) ∧
  (F64Ext.div_euclid Mprov x ⟨false, 0, 0⟩).isNan ∧
  (F64Ext.rem_euclid Mprov x ⟨false, 0, 0⟩).isNan

/-- Statement of the Euclidean contract for the spec-modelled provider on
operands whose narrowed values are finite with a nonzero divisor: there is an
exact integer quotient and an exact least nonnegative remainder satisfying
the Euclidean identity on the narrowed values, the facade returns exactly
their correctly-rounded widenings, and the returned remainder is nonnegative
(nonnegative sign bit, not NaN, nonnegative numeric value). -/
def EuclidSpec (a b : F64) : Prop :=
  0 ≤ euR (narrow a) (narrow b) ∧
  (euQ (narrow a) (narrow b) : ℚ) * (narrow b).toRat +
      (euR (narrow a) (narrow b) : ℚ) * (2:ℚ) ^ euE (narrow a) (narrow b) =
    (narrow a).toRat ∧
  (euR (narrow a) (narrow b) : ℚ) * (2:ℚ) ^ euE (narrow a) (narrow b) <
    |(narrow b).toRat| ∧
  F64Ext.div_euclid Mprov a b =
    widen (roundDyadicF32 (decide (euQ (narrow a) (narrow b) < 0))
      (euQ (narrow a) (narrow b)).natAbs 0) ∧
  F64Ext.rem_euclid Mprov a b =
    widen (roundDyadicF32 false (euR (narrow a) (narrow b)).toNat
      (euE (narrow a) (narrow b))) ∧
  (F64Ext.rem_euclid Mprov a b).sign = false ∧
  F64.ge0 (F64Ext.rem_euclid Mprov a b)

theorem bitLenAux_zero (fuel : Nat) : bitLenAux fuel 0 = 0 := by
  cases fuel <;> simp [bitLenAux]

theorem bitLenAux_spec : ∀ (fuel m : Nat), m < 2 ^ fuel → m ≠ 0 →
    2 ^ (bitLenAux fuel m - 1) ≤ m ∧ m < 2 ^ bitLenAux fuel m := by
  intro fuel
  induction fuel with
  | zero => intro m h hm; simp at h; omega
  | succ f ih =>
    intro m h hm
    rw [bitLenAux, if_neg hm]
    by_cases h2 : m / 2 = 0
    · have hm1 : m = 1 := by omega
      subst hm1
      simp [h2, bitLenAux_zero]
    · have hlt : m / 2 < 2 ^ f := by
        have hp : (2:Nat) ^ (f + 1) = 2 ^ f * 2 := by rw [Nat.pow_succ]
        omega
      obtain ⟨h3, h4⟩ := ih (m / 2) hlt h2
      have hL1 : 1 ≤ bitLenAux f (m / 2) := by
        by_contra hc
        push_neg at hc
        have h0 : bitLenAux f (m / 2) = 0 := by omega
        rw [h0] at h4
        omega
      have e1 : (2:Nat) ^ bitLenAux f (m / 2) = 2 ^ (bitLenAux f (m / 2) - 1) * 2 := by
        conv_lhs => rw [show bitLenAux f (m / 2) = (bitLenAux f (m / 2) - 1) + 1 from by omega]
        rw [Nat.pow_succ]
      have e2 : (2:Nat) ^ (bitLenAux f (m / 2) + 1) = 2 ^ bitLenAux f (m / 2) * 2 := by
        rw [Nat.pow_succ]
      constructor
      · simp only [Nat.add_sub_cancel]
        omega
      · omega

theorem bitLen_spec (m : Nat) (hm : m ≠ 0) :
    2 ^ (bitLen m - 1) ≤ m ∧ m < 2 ^ bitLen m :=
  bitLenAux_spec m m (Nat.lt_two_pow m) hm

theorem bitLen_pos (m : Nat) (hm : m ≠ 0) : 1 ≤ bitLen m := by
  obtain ⟨h3, h4⟩ := bitLen_spec m hm
  by_contra hc
  push_neg at hc
  have h0 : bitLen m = 0 := by omega
  rw [h0] at h4
  omega

theorem bitLen_eq (m k : Nat) (h1 : 2 ^ k ≤ m) (h2 : m < 2 ^ (k + 1)) :
    bitLen m = k + 1 := by
  have hm : m ≠ 0 := by
    have hp : (1:Nat) ≤ 2 ^ k := Nat.one_le_two_pow
    omega
  obtain ⟨h3, h4⟩ := bitLen_spec m hm
  have hL1 : 1 ≤ bitLen m := bitLen_pos m hm
  rcases Nat.lt_trichotomy (bitLen m) (k + 1) with h | h | h
  · exfalso
    have hle : (2:Nat) ^ bitLen m ≤ 2 ^ k := Nat.pow_le_pow_right (by norm_num) (by omega)
    omega
  · exact h
  · exfalso
    have hle : (2:Nat) ^ (k + 1) ≤ 2 ^ (bitLen m - 1) :=
      Nat.pow_le_pow_right (by norm_num) (by omega)
    omega

theorem bitLen_le_of_lt (m k : Nat) (h : m < 2 ^ k) : bitLen m ≤ k := by
  by_cases hm : m = 0
  · subst hm
    simp [bitLen, bitLenAux]
  · obtain ⟨h1, h2⟩ := bitLen_spec m hm
    by_contra hc
    push_neg at hc
    have : (2:Nat) ^ k ≤ 2 ^ (bitLen m - 1) := Nat.pow_le_pow_right (by norm_num) (by omega)
    omega

theorem encodeF32_sign (b : Bool) (m : Nat) (e : Int) : (encodeF32 b m e).sign = b := by
  simp only [encodeF32]
  split_ifs <;> rfl

theorem roundDyadicF32_sign (b : Bool) (m : Nat) (e : Int) :
    (roundDyadicF32 b m e).sign = b := by
  simp only [roundDyadicF32]
  split_ifs
  · rfl
  · exact encodeF32_sign b _ _

theorem encodeF32_not_nan (b : Bool) (m : Nat) (e : Int) : ¬ (encodeF32 b m e).isNan := by
  simp only [encodeF32]
  split_ifs with h1 h2 h3 h4
  · simp [F32.isNan]
  · simp [F32.isNan]
  · intro hn
    simp only [F32.isNan] at hn
    obtain ⟨hex, _⟩ := hn
    have hle : ((bitLen m : Int) - 1 + e + 127).toNat ≤ 254 := Int.toNat_le.mpr (by omega)
    omega
  · intro hn
    simp only [F32.isNan] at hn
    obtain ⟨hex, _⟩ := hn
    have hle : ((bitLen m : Int) - 1 + e + 127).toNat ≤ 254 := Int.toNat_le.mpr (by omega)
    omega
  · simp [F32.isNan]

theorem roundDyadicF32_not_nan (b : Bool) (m : Nat) (e : Int) :
    ¬ (roundDyadicF32 b m e).isNan := by
  simp only [roundDyadicF32]
  split_ifs
  · simp [F32.isNan]
  · exact encodeF32_not_nan b _ _

theorem narrow_sign (x : F64) : (narrow x).sign = x.sign := by
  simp only [narrow]
  split_ifs <;> first | rfl | exact roundDyadicF32_sign _ _ _

theorem widen_sign (s : F32) : (widen s).sign = s.sign := by
  simp only [widen]
  split_ifs <;> rfl

theorem widen_congr_sign (b : Bool) (s : F32) :
    widen ⟨b, s.ex, s.frac⟩ = ⟨b, (widen s).ex, (widen s).frac⟩ := by
  rcases s with ⟨c, ex, f⟩
  simp only [widen]
  split_ifs <;> rfl

theorem widen_nan_of (s : F32) (h : s.isNan) : (widen s).isNan := by
  obtain ⟨h1, h2⟩ := h
  simp only [widen, h1, if_pos rfl]
  exact ⟨rfl, Nat.mul_ne_zero h2 (by norm_num)⟩

theorem widen_not_nan (s : F32) (hwf : s.wf) (h : ¬ s.isNan) : ¬ (widen s).isNan := by
  rcases s with ⟨b, ex, f⟩
  simp only [F32.wf] at hwf
  obtain ⟨hex, hf⟩ := hwf
  simp only [widen]
  split_ifs with h1 h2 h3
  · have hf0 : f = 0 := by
      by_contra hc
      exact h ⟨h1, hc⟩
    subst hf0
    simp [F64.isNan]
  · simp [F64.isNan]
  · intro hn
    simp only [F64.isNan] at hn
    obtain ⟨hn1, _⟩ := hn
    have : bitLen f ≤ 23 := bitLen_le_of_lt f 23 hf
    omega
  · intro hn
    simp only [F64.isNan] at hn
    obtain ⟨hn1, _⟩ := hn
    omega

theorem roundPos_normal (ex : Int) (f : Nat) (h1 : 1 ≤ ex) (h3 : f < 2 ^ 23) :
    roundPos (2 ^ 52 + f * 2 ^ 29) (ex - 179) = (2 ^ 23 + f, ex - 150) := by
  have hfb : f * 2 ^ 29 ≤ (2 ^ 23 - 1) * 2 ^ 29 := Nat.mul_le_mul_right _ (by omega)
  have hfb2 : ((2:Nat) ^ 23 - 1) * 2 ^ 29 < 2 ^ 52 := by norm_num
  have hbl : bitLen (2 ^ 52 + f * 2 ^ 29) = 53 := by
    apply bitLen_eq _ 52 (by omega)
    have h53 : (2:Nat) ^ 53 = 2 ^ 52 + 2 ^ 52 := by norm_num
    omega
  have hq : (2 ^ 52 + f * 2 ^ 29) / 2 ^ 29 = 2 ^ 23 + f := by
    rw [show (2:Nat) ^ 52 = 2 ^ 23 * 2 ^ 29 from by norm_num, ← Nat.add_mul]
    exact Nat.mul_div_cancel _ (by norm_num)
  have hr : (2 ^ 52 + f * 2 ^ 29) % 2 ^ 29 = 0 := by
    rw [show (2:Nat) ^ 52 = 2 ^ 23 * 2 ^ 29 from by norm_num, ← Nat.add_mul]
    exact Nat.mul_mod_left _ _
  have hc1 : -126 ≤ ((53:Nat):Int) - 1 + (ex - 179) := by push_cast; omega
  have hc2 : (0:Int) < ((53:Nat):Int) - 24 := by norm_num
  have ht : (((53:Nat):Int) - 24).toNat = 29 := by decide
  simp only [roundPos, hbl]
  rw [if_pos hc1, if_pos hc2, ht, hq, hr]
  rw [if_neg (by norm_num)]
  refine Prod.ext rfl ?_
  push_cast
  omega

theorem encodeF32_normal (b : Bool) (ex f : Nat) (h1 : 1 ≤ ex) (h2 : ex ≤ 254)
    (h3 : f < 2 ^ 23) : encodeF32 b (2 ^ 23 + f) ((ex : Int) - 150) = ⟨b, ex, f⟩ := by
  have hm : 2 ^ 23 + f ≠ 0 := by omega
  have hbl : bitLen (2 ^ 23 + f) = 24 := by
    apply bitLen_eq _ 23 (by omega)
    have h24 : (2:Nat) ^ 24 = 2 ^ 23 + 2 ^ 23 := by norm_num
    omega
  have hE : ((24:Nat):Int) - 1 + ((ex : Int) - 150) + 127 = (ex : Int) := by push_cast; ring
  simp only [encodeF32, hbl]
  rw [if_neg hm]
  rw [if_neg (show ¬ (127:Int) < ((24:Nat):Int) - 1 + ((ex : Int) - 150) from by omega)]
  rw [if_pos (show (-126:Int) ≤ ((24:Nat):Int) - 1 + ((ex : Int) - 150) from by omega)]
  rw [if_pos (show (24:Nat) ≤ 24 from le_refl 24)]
  rw [hE, Int.toNat_natCast]
  simp only [F32.mk.injEq]
  refine ⟨trivial, trivial, ?_⟩
  norm_num

theorem roundPos_sub (k f : Nat) (hk1 : 1 ≤ k) (hk2 : k ≤ 23) (hf1 : 2 ^ (k - 1) ≤ f)
    (hf2 : f < 2 ^ k) :
    roundPos (2 ^ 52 + (f - 2 ^ (k - 1)) * 2 ^ (53 - k)) ((k : Int) - 202) = (f, -149) := by
  have hsplit : (2:Nat) ^ 52 = 2 ^ (k - 1) * 2 ^ (53 - k) := by
    rw [← pow_add]
    congr 1
    omega
  have ht : f - 2 ^ (k - 1) < 2 ^ (k - 1) := by
    have hp : (2:Nat) ^ k = 2 ^ (k - 1) * 2 := by
      conv_lhs => rw [show k = (k - 1) + 1 from by omega]
      rw [Nat.pow_succ]
    omega
  have htb : (f - 2 ^ (k - 1)) * 2 ^ (53 - k) < 2 ^ 52 := by
    rw [hsplit]
    exact (Nat.mul_lt_mul_right (Nat.pos_pow_of_pos _ (by norm_num))).mpr ht
  have hbl : bitLen (2 ^ 52 + (f - 2 ^ (k - 1)) * 2 ^ (53 - k)) = 53 := by
    apply bitLen_eq _ 52 (by omega)
    have h53 : (2:Nat) ^ 53 = 2 ^ 52 + 2 ^ 52 := by norm_num
    omega
  have hmq : 2 ^ 52 + (f - 2 ^ (k - 1)) * 2 ^ (53 - k) = f * 2 ^ (53 - k) := by
    rw [hsplit, ← Nat.add_mul]
    congr 1
    omega
  have hq : (2 ^ 52 + (f - 2 ^ (k - 1)) * 2 ^ (53 - k)) / 2 ^ (53 - k) = f := by
    rw [hmq]
    exact Nat.mul_div_cancel _ (Nat.pos_pow_of_pos _ (by norm_num))
  have hr : (2 ^ 52 + (f - 2 ^ (k - 1)) * 2 ^ (53 - k)) % 2 ^ (53 - k) = 0 := by
    rw [hmq]
    exact Nat.mul_mod_left _ _
  have hs : ((((53:Nat)):Int) - (150 + (((53:Nat):Int) - 1 + ((k : Int) - 202)))).toNat
      = 53 - k := by omega
  simp only [roundPos, hbl]
  rw [if_neg (show ¬ (-126:Int) ≤ ((53:Nat):Int) - 1 + ((k : Int) - 202) from by omega)]
  rw [if_pos (show (0:Int) < ((53:Nat):Int) - (150 + (((53:Nat):Int) - 1 + ((k : Int) - 202)))
    from by omega)]
  rw [hs, hq, hr]
  have hpos : (1:Nat) ≤ 2 ^ (53 - k - 1) := Nat.one_le_two_pow
  rw [if_neg (by omega)]
  refine Prod.ext rfl ?_
  simp only
  omega

theorem encodeF32_sub (b : Bool) (k f : Nat) (hk1 : 1 ≤ k) (hk2 : k ≤ 23)
    (hf1 : 2 ^ (k - 1) ≤ f) (hf2 : f < 2 ^ k) : encodeF32 b f (-149) = ⟨b, 0, f⟩ := by
  have hm : f ≠ 0 := by
    have : (1:Nat) ≤ 2 ^ (k - 1) := Nat.one_le_two_pow
    omega
  have hbl : bitLen f = k := by
    have h := bitLen_eq f (k - 1) hf1 (by rw [show (k - 1) + 1 = k from by omega]; exact hf2)
    omega
  simp only [encodeF32, hbl]
  rw [if_neg hm]
  rw [if_neg (show ¬ (127:Int) < (k:Int) - 1 + -149 from by omega)]
  rw [if_neg (show ¬ (-126:Int) ≤ (k:Int) - 1 + -149 from by omega)]
  simp only [F32.mk.injEq]
  refine ⟨trivial, trivial, ?_⟩
  rw [show ((-149:Int) + 149).toNat = 0 from by decide]
  norm_num

theorem widen_mk_255 (b : Bool) (f : Nat) : widen ⟨b, 255, f⟩ = ⟨b, 2047, f * 2 ^ 29⟩ := by
  simp [widen]

theorem widen_mk_zero (b : Bool) : widen ⟨b, 0, 0⟩ = ⟨b, 0, 0⟩ := by
  simp [widen]

theorem widen_mk_sub (b : Bool) (f : Nat) (hf0 : f ≠ 0) :
    widen ⟨b, 0, f⟩ = ⟨b, bitLen f + 873, (f - 2 ^ (bitLen f - 1)) * 2 ^ (53 - bitLen f)⟩ := by
  simp [widen, hf0]

theorem widen_mk_norm (b : Bool) (ex f : Nat) (h255 : ex ≠ 255) (h0 : ex ≠ 0) :
    widen ⟨b, ex, f⟩ = ⟨b, ex + 896, f * 2 ^ 29⟩ := by
  simp [widen, h255, h0]

theorem narrow_mk_nan (b : Bool) (F : Nat) (h : F ≠ 0) :
    narrow ⟨b, 2047, F⟩ =
      ⟨b, 255, if 2 ^ 22 ≤ F / 2 ^ 29 then F / 2 ^ 29 else F / 2 ^ 29 + 2 ^ 22⟩ := by
  simp [narrow, h]

theorem narrow_mk_inf (b : Bool) : narrow ⟨b, 2047, 0⟩ = ⟨b, 255, 0⟩ := by
  simp [narrow]

theorem narrow_mk_fin (b : Bool) (E F : Nat) (h : E ≠ 2047) :
    narrow ⟨b, E, F⟩ =
      roundDyadicF32 b (if E = 0 then F else 2 ^ 52 + F) (if E = 0 then -1074 else (E : Int) - 1075) := by
  simp [narrow, h, F64.sig, F64.expLsb]

theorem narrow_widen (s : F32) (hwf : s.wf) (hqn : s.isNan → 2 ^ 22 ≤ s.frac) :
    narrow (widen s) = s := by
  rcases s with ⟨b, ex, f⟩
  simp only [F32.wf] at hwf
  obtain ⟨hex, hf⟩ := hwf
  by_cases h255 : ex = 255
  · subst h255
    by_cases hf0 : f = 0
    · subst hf0
      rw [widen_mk_255]
      norm_num [narrow_mk_inf]
    · have hquiet : (2:Nat) ^ 22 ≤ f := hqn ⟨rfl, hf0⟩
      rw [widen_mk_255, narrow_mk_nan b _ (Nat.mul_ne_zero hf0 (by norm_num))]
      have hdiv : f * 2 ^ 29 / 2 ^ 29 = f := Nat.mul_div_cancel _ (by norm_num)
      rw [hdiv, if_pos hquiet]
  · by_cases h0 : ex = 0
    · subst h0
      by_cases hf0 : f = 0
      · subst hf0
        rw [widen_mk_zero, narrow_mk_fin b 0 0 (by omega)]
        simp [roundDyadicF32]
      · obtain ⟨hk3, hk4⟩ := bitLen_spec f hf0
        have hk1 : 1 ≤ bitLen f := bitLen_pos f hf0
        have hk2 : bitLen f ≤ 23 := bitLen_le_of_lt f 23 hf
        rw [widen_mk_sub b f hf0, narrow_mk_fin b _ _ (by omega)]
        rw [if_neg (by omega : ¬ bitLen f + 873 = 0), if_neg (by omega : ¬ bitLen f + 873 = 0)]
        have he : ((bitLen f + 873 : Nat) : Int) - 1075 = (bitLen f : Int) - 202 := by
          push_cast
          ring
        rw [he]
        simp only [roundDyadicF32]
        rw [if_neg (by positivity : ¬ 2 ^ 52 + (f - 2 ^ (bitLen f - 1)) * 2 ^ (53 - bitLen f) = 0)]
        rw [roundPos_sub (bitLen f) f hk1 hk2 hk3 hk4]
        exact encodeF32_sub b (bitLen f) f hk1 hk2 hk3 hk4
    · have h1 : 1 ≤ ex := by omega
      have h2 : ex ≤ 254 := by omega
      rw [widen_mk_norm b ex f h255 h0, narrow_mk_fin b _ _ (by omega)]
      rw [if_neg (by omega : ¬ ex + 896 = 0), if_neg (by omega : ¬ ex + 896 = 0)]
      have he : ((ex + 896 : Nat) : Int) - 1075 = (ex : Int) - 179 := by
        push_cast
        ring
      rw [he]
      simp only [roundDyadicF32]
      rw [if_neg (by positivity : ¬ 2 ^ 52 + f * 2 ^ 29 = 0)]
      rw [roundPos_normal (ex : Int) f (by omega) hf]
      exact encodeF32_normal b ex f h1 h2 hf

theorem bitLen_gt_of_le (k x : Nat) (h : 2 ^ k ≤ x) : k + 1 ≤ bitLen x := by
  have hx : x ≠ 0 := by
    have : (1:Nat) ≤ 2 ^ k := Nat.one_le_two_pow
    omega
  obtain ⟨h1, h2⟩ := bitLen_spec x hx
  by_contra hc
  push_neg at hc
  have : (2:Nat) ^ bitLen x ≤ 2 ^ k := Nat.pow_le_pow_right (by norm_num) (by omega)
  omega

theorem roundPos_bound (m : Nat) (e : Int) (hm : m ≠ 0) :
    -149 ≤ (roundPos m e).2 ∨
      -126 ≤ (bitLen (roundPos m e).1 : Int) - 1 + (roundPos m e).2 := by
  obtain ⟨hs1, hs2⟩ := bitLen_spec m hm
  simp only [roundPos]
  split_ifs with h1 h2 h3
  all_goals simp only
  · -- p = 24, shift positive, round up
    right
    set s := (((bitLen m : Int)) - 24).toNat with hsdef
    have hn : 25 ≤ bitLen m := by omega
    have hsv : s = bitLen m - 24 := by omega
    have hql : 2 ^ 23 ≤ m / 2 ^ s := by
      have hd : (2:Nat) ^ (bitLen m - 1) / 2 ^ s = 2 ^ 23 := by
        rw [Nat.pow_div (by omega) (by norm_num)]
        congr 1
        omega
      rw [← hd]
      exact Nat.div_le_div_right hs1
    have hb : 24 ≤ bitLen (m / 2 ^ s + 1) := bitLen_gt_of_le 23 _ (by omega)
    omega
  · -- p = 24, shift positive, round down
    right
    set s := (((bitLen m : Int)) - 24).toNat with hsdef
    have hn : 25 ≤ bitLen m := by omega
    have hsv : s = bitLen m - 24 := by omega
    have hql : 2 ^ 23 ≤ m / 2 ^ s := by
      have hd : (2:Nat) ^ (bitLen m - 1) / 2 ^ s = 2 ^ 23 := by
        rw [Nat.pow_div (by omega) (by norm_num)]
        congr 1
        omega
      rw [← hd]
      exact Nat.div_le_div_right hs1
    have hb : 24 ≤ bitLen (m / 2 ^ s) := bitLen_gt_of_le 23 _ hql
    omega
  · -- p = 24, shift nonpositive: unrounded
    right
    omega
  · -- subnormal target, shift positive, round up
    left
    omega
  · -- subnormal target, shift positive, round down
    left
    omega
  · -- subnormal target, shift nonpositive
    left
    omega

theorem encodeF32_wf (b : Bool) (m : Nat) (e : Int)
    (h : -149 ≤ e ∨ -126 ≤ (bitLen m : Int) - 1 + e) : (encodeF32 b m e).wf := by
  by_cases hm : m = 0
  · subst hm
    simp [encodeF32, F32.wf]
  obtain ⟨hs1, hs2⟩ := bitLen_spec m hm
  simp only [encodeF32]
  rw [if_neg hm]
  split_ifs with h1 h2 h3
  · exact ⟨by norm_num, by norm_num⟩
  · constructor
    · have : ((bitLen m : Int) - 1 + e + 127).toNat ≤ 254 := Int.toNat_le.mpr (by omega)
      simp only
      omega
    · simp only
      have hsig : m * 2 ^ (24 - bitLen m) < 2 ^ 24 := by
        have hp : (2:Nat) ^ bitLen m * 2 ^ (24 - bitLen m) = 2 ^ 24 := by
          rw [← pow_add]
          congr 1
          omega
        calc m * 2 ^ (24 - bitLen m) < 2 ^ bitLen m * 2 ^ (24 - bitLen m) :=
          (Nat.mul_lt_mul_right (Nat.pos_pow_of_pos _ (by norm_num))).mpr hs2
        _ = 2 ^ 24 := hp
      have h24 : (2:Nat) ^ 24 = 2 ^ 23 + 2 ^ 23 := by norm_num
      omega
  · constructor
    · have : ((bitLen m : Int) - 1 + e + 127).toNat ≤ 254 := Int.toNat_le.mpr (by omega)
      simp only
      omega
    · simp only
      have hsig : m / 2 ^ (bitLen m - 24) < 2 ^ 24 := by
        rw [Nat.div_lt_iff_lt_mul (Nat.pos_pow_of_pos _ (by norm_num))]
        calc m < 2 ^ bitLen m := hs2
        _ = 2 ^ 24 * 2 ^ (bitLen m - 24) := by
          rw [← pow_add]
          congr 1
          omega
      have h24 : (2:Nat) ^ 24 = 2 ^ 23 + 2 ^ 23 := by norm_num
      omega
  · constructor
    · simp only
      norm_num
    · simp only
      have he : -149 ≤ e := by
        rcases h with h | h
        · exact h
        · omega
      have ht : ((e + 149).toNat : Int) = e + 149 := by omega
      have hexp : bitLen m + (e + 149).toNat ≤ 23 := by omega
      calc m * 2 ^ (e + 149).toNat < 2 ^ bitLen m * 2 ^ (e + 149).toNat :=
        (Nat.mul_lt_mul_right (Nat.pos_pow_of_pos _ (by norm_num))).mpr hs2
      _ = 2 ^ (bitLen m + (e + 149).toNat) := by rw [← pow_add]
      _ ≤ 2 ^ 23 := Nat.pow_le_pow_right (by norm_num) hexp

theorem roundDyadicF32_wf (b : Bool) (m : Nat) (e : Int) : (roundDyadicF32 b m e).wf := by
  simp only [roundDyadicF32]
  split_ifs with h
  · exact ⟨by norm_num, by norm_num⟩
  · exact encodeF32_wf b _ _ (roundPos_bound m e h)

theorem toRat_eq (x : F64) :
    x.toRat = (if x.sign then -((x.sig : ℚ)) else (x.sig : ℚ)) * (2:ℚ) ^ x.expLsb := by
  simp only [F64.toRat, F64.intVal]
  split_ifs <;> push_cast <;> ring

theorem toRat32_eq (s : F32) :
    s.toRat = (if s.sign then -((s.sig : ℚ)) else (s.sig : ℚ)) * (2:ℚ) ^ s.expLsb := by
  simp only [F32.toRat, F32.intVal]
  split_ifs <;> push_cast <;> ring

theorem toRat_absExact (x : F64) : (F64.absExact x).toRat = |x.toRat| := by
  have hsig : (F64.absExact x).sig = x.sig := by
    rcases x with ⟨b, ex, f⟩
    rfl
  have hexp : (F64.absExact x).expLsb = x.expLsb := by
    rcases x with ⟨b, ex, f⟩
    rfl
  have hsgn : (F64.absExact x).sign = false := by
    rcases x with ⟨b, ex, f⟩
    rfl
  rw [toRat_eq, toRat_eq, hsig, hexp, hsgn]
  have hz : (0:ℚ) < (2:ℚ) ^ x.expLsb := by positivity
  have hc : (0:ℚ) ≤ (x.sig : ℚ) := Nat.cast_nonneg _
  rw [if_neg Bool.false_ne_true]
  cases hx : x.sign
  · rw [if_neg Bool.false_ne_true]
    rw [abs_of_nonneg (mul_nonneg hc (le_of_lt hz))]
  · rw [if_pos rfl]
    rw [abs_mul, abs_neg, abs_of_nonneg hc, abs_of_pos hz]

theorem abs_toRat_sign (b c : Bool) (ex f : Nat) :
    |F64.toRat ⟨b, ex, f⟩| = |F64.toRat ⟨c, ex, f⟩| := by
  rw [← toRat_absExact ⟨b, ex, f⟩, ← toRat_absExact ⟨c, ex, f⟩]
  rfl

theorem toRat_nonneg (x : F64) (h : x.sign = false) : 0 ≤ x.toRat := by
  rw [toRat_eq, h]
  simp only [if_neg Bool.false_ne_true]
  have hz : (0:ℚ) < (2:ℚ) ^ x.expLsb := by positivity
  exact mul_nonneg (Nat.cast_nonneg _) (le_of_lt hz)

theorem int_emod_lt_abs (a b : Int) (h : b ≠ 0) : a % b < |b| := by
  rcases lt_trichotomy b 0 with hb | hb | hb
  · have h2 : a % (-b) < -b := Int.emod_lt_of_pos a (by omega)
    rw [Int.emod_neg] at h2
    rw [abs_of_neg hb]
    exact h2
  · exact absurd hb h
  · rw [abs_of_pos hb]
    exact Int.emod_lt_of_pos a hb
theorem euA_val (a b : F32) : (euA a b : ℚ) * (2:ℚ) ^ euE a b = a.toRat := by
  simp only [euA, F32.toRat]
  push_cast
  rw [mul_assoc]
  congr 1
  have ht : ((a.expLsb - euE a b).toNat : Int) = a.expLsb - euE a b := by
    rw [Int.toNat_of_nonneg]
    simp [euE]
  calc (2:ℚ) ^ (a.expLsb - euE a b).toNat * (2:ℚ) ^ euE a b
      = (2:ℚ) ^ ((a.expLsb - euE a b).toNat : Int) * (2:ℚ) ^ euE a b := by
        rw [zpow_natCast]
  _ = (2:ℚ) ^ ((a.expLsb - euE a b).toNat + euE a b) := by
        rw [← zpow_add₀ (by norm_num : (2:ℚ) ≠ 0)]
  _ = (2:ℚ) ^ a.expLsb := by rw [ht]; congr 1; ring

theorem euB_val (a b : F32) : (euB a b : ℚ) * (2:ℚ) ^ euE a b = b.toRat := by
  simp only [euB, F32.toRat]
  push_cast
  rw [mul_assoc]
  congr 1
  have ht : ((b.expLsb - euE a b).toNat : Int) = b.expLsb - euE a b := by
    rw [Int.toNat_of_nonneg]
    simp [euE]
  calc (2:ℚ) ^ (b.expLsb - euE a b).toNat * (2:ℚ) ^ euE a b
      = (2:ℚ) ^ ((b.expLsb - euE a b).toNat : Int) * (2:ℚ) ^ euE a b := by
        rw [zpow_natCast]
  _ = (2:ℚ) ^ ((b.expLsb - euE a b).toNat + euE a b) := by
        rw [← zpow_add₀ (by norm_num : (2:ℚ) ≠ 0)]
  _ = (2:ℚ) ^ b.expLsb := by rw [ht]; congr 1; ring

theorem euB_ne_zero (a b : F32) (h : b.sig ≠ 0) : euB a b ≠ 0 := by
  apply mul_ne_zero
  · simp only [F32.intVal]
    split_ifs <;> simpa using h
  · positivity

theorem roundPos_big (m : Nat) (e : Int) (hm1 : 2 ^ 52 ≤ m) (hm2 : m < 2 ^ 53)
    (he : -97 ≤ e) : 2 ^ 23 ≤ (roundPos m e).1 ∧ (roundPos m e).2 = e + 29 := by
  have hbl : bitLen m = 53 := bitLen_eq m 52 hm1 hm2
  have hc1 : -126 ≤ ((53:Nat):Int) - 1 + e := by push_cast; omega
  have hc2 : (0:Int) < ((53:Nat):Int) - 24 := by norm_num
  have ht : (((53:Nat):Int) - 24).toNat = 29 := by decide
  have hq : 2 ^ 23 ≤ m / 2 ^ 29 := by
    rw [Nat.le_div_iff_mul_le (by norm_num)]
    calc (2:Nat) ^ 23 * 2 ^ 29 = 2 ^ 52 := by norm_num
    _ ≤ m := hm1
  simp only [roundPos, hbl]
  rw [if_pos hc1, if_pos hc2, ht]
  constructor
  · split_ifs <;> omega
  · simp only
    push_cast
    ring

theorem encodeF32_inf (b : Bool) (m : Nat) (e : Int) (hm : m ≠ 0)
    (hE : 127 < (bitLen m : Int) - 1 + e) : encodeF32 b m e = ⟨b, 255, 0⟩ := by
  simp only [encodeF32]
  rw [if_neg hm, if_pos hE]

theorem narrow_overflow (x : F64) (hwf : x.wf) (hfin : x.isFinite) (hbig : 1151 ≤ x.ex) :
    narrow x = ⟨x.sign, 255, 0⟩ := by
  rcases x with ⟨b, ex, f⟩
  simp only [F64.wf] at hwf
  obtain ⟨hex, hf⟩ := hwf
  simp only [F64.isFinite] at hfin
  simp only at hbig
  rw [narrow_mk_fin b ex f hfin]
  rw [if_neg (by omega : ¬ ex = 0), if_neg (by omega : ¬ ex = 0)]
  simp only [roundDyadicF32]
  rw [if_neg (by positivity : ¬ 2 ^ 52 + f = 0)]
  have hm53 : 2 ^ 52 + f < 2 ^ 53 := by
    have h53 : (2:Nat) ^ 53 = 2 ^ 52 + 2 ^ 52 := by norm_num
    omega
  obtain ⟨hb1, hb2⟩ := roundPos_big (2 ^ 52 + f) ((ex : Int) - 1075) (by omega) hm53 (by omega)
  have hm0 : (roundPos (2 ^ 52 + f) ((ex : Int) - 1075)).1 ≠ 0 := by
    have : (1:Nat) ≤ 2 ^ 23 := by norm_num
    omega
  have hbl : 24 ≤ bitLen (roundPos (2 ^ 52 + f) ((ex : Int) - 1075)).1 :=
    bitLen_gt_of_le 23 _ hb1
  rw [encodeF32_inf b _ _ hm0 (by rw [hb2]; omega)]

theorem roundPos_band (m : Nat) (hm1 : 2 ^ 53 - 2 ^ 28 ≤ m) (hm2 : m < 2 ^ 53) :
    roundPos m 75 = (2 ^ 24, 104) := by
  have hm0 : 2 ^ 52 ≤ m := by omega
  have hbl : bitLen m = 53 := bitLen_eq m 52 hm0 hm2
  have hc1 : -126 ≤ ((53:Nat):Int) - 1 + 75 := by norm_num
  have hc2 : (0:Int) < ((53:Nat):Int) - 24 := by norm_num
  have ht : (((53:Nat):Int) - 24).toNat = 29 := by decide
  have hcond : 2 ^ (29 - 1) < m % 2 ^ 29 ∨
      (m % 2 ^ 29 = 2 ^ (29 - 1) ∧ m / 2 ^ 29 % 2 = 1) := by omega
  have hq1 : m / 2 ^ 29 + 1 = 2 ^ 24 := by omega
  simp only [roundPos, hbl]
  rw [if_pos hc1, if_pos hc2, ht]
  rw [if_pos hcond, hq1]
  refine Prod.ext rfl ?_
  norm_num

theorem narrow_overflow_band (x : F64) (hwf : x.wf) (hex : x.ex = 1150)
    (hf : 2 ^ 52 - 2 ^ 28 ≤ x.frac) : narrow x = ⟨x.sign, 255, 0⟩ := by
  rcases x with ⟨b, ex, f⟩
  simp only [F64.wf] at hwf
  obtain ⟨hexb, hfb⟩ := hwf
  simp only at hex hf
  subst hex
  rw [narrow_mk_fin b 1150 f (by norm_num)]
  rw [if_neg (by norm_num : ¬ (1150:Nat) = 0), if_neg (by norm_num : ¬ (1150:Nat) = 0)]
  rw [show (((1150:Nat)):Int) - 1075 = 75 from by decide]
  simp only [roundDyadicF32]
  rw [if_neg (by positivity : ¬ 2 ^ 52 + f = 0)]
  rw [roundPos_band (2 ^ 52 + f) (by omega) (by omega)]
  exact encodeF32_inf b (2 ^ 24) 104 (by norm_num)
    (by rw [bitLen_eq (2 ^ 24) 24 (le_refl _) (by norm_num)]; norm_num)

theorem euclid_identity (a b : F32) :
    (euQ a b : ℚ) * b.toRat + (euR a b : ℚ) * (2:ℚ) ^ euE a b = a.toRat := by
  have h1 : euB a b * euQ a b + euR a b = euA a b := by
    simpa [euQ, euR] using Int.ediv_add_emod (euA a b) (euB a b)
  rw [← euA_val a b, ← euB_val a b]
  calc (euQ a b : ℚ) * ((euB a b : ℚ) * (2:ℚ) ^ euE a b) + (euR a b : ℚ) * (2:ℚ) ^ euE a b
      = ((euB a b * euQ a b + euR a b : Int) : ℚ) * (2:ℚ) ^ euE a b := by push_cast; ring
  _ = (euA a b : ℚ) * (2:ℚ) ^ euE a b := by rw [h1]

theorem euR_nonneg (a b : F32) (hbz : b.sig ≠ 0) : 0 ≤ euR a b :=
  Int.emod_nonneg _ (euB_ne_zero a b hbz)

theorem euR_lt (a b : F32) (hbz : b.sig ≠ 0) :
    (euR a b : ℚ) * (2:ℚ) ^ euE a b < |b.toRat| := by
  have h1 : euR a b < |euB a b| := int_emod_lt_abs _ _ (euB_ne_zero a b hbz)
  have hp : (0:ℚ) < (2:ℚ) ^ euE a b := by positivity
  have h2 : |b.toRat| = ((|euB a b| : Int) : ℚ) * (2:ℚ) ^ euE a b := by
    rw [← euB_val a b, abs_mul, abs_of_pos hp]
    congr 1
    exact Int.cast_abs.symm
  rw [h2]
  have hcast : (euR a b : ℚ) < ((|euB a b| : Int) : ℚ) := by exact_mod_cast h1
  exact mul_lt_mul_of_pos_right hcast hp

theorem toRat_ne_zero (x : F64) (h : x.sig ≠ 0) : x.toRat ≠ 0 := by
  rw [toRat_eq]
  apply mul_ne_zero
  · cases hx : x.sign
    · rw [if_neg Bool.false_ne_true]
      exact_mod_cast h
    · rw [if_pos rfl]
      simp only [neg_ne_zero]
      exact_mod_cast h
  · positivity

theorem toRat_lt_frac (ex f g : Nat) (h : f < g) :
    F64.toRat ⟨false, ex, f⟩ < F64.toRat ⟨false, ex, g⟩ := by
  rw [toRat_eq, toRat_eq]
  simp only [if_neg Bool.false_ne_true]
  have hexp : (F64.expLsb ⟨false, ex, f⟩) = F64.expLsb ⟨false, ex, g⟩ := rfl
  rw [hexp]
  apply mul_lt_mul_of_pos_right
  · have hsig : F64.sig ⟨false, ex, f⟩ < F64.sig ⟨false, ex, g⟩ := by
      simp only [F64.sig]
      split_ifs <;> omega
    exact_mod_cast hsig
  · positivity

/-- C1: for every provider, every operation of the facade and every
double-precision input (and second operand or integer exponent where
applicable), the double-precision result equals widening the provider result
applied to the narrowed operands, and no operation performs arithmetic at
double precision beyond the narrowing and widening conversions: every facade
operation coincides with the spec-side narrow-delegate-widen composition. -/
theorem c1_delegation (P : F32Provider) (x y : F64) (n : Int) : DelegationEq P x y n :=
  ⟨rfl, rfl, rfl, rfl, rfl, rfl, rfl, rfl, rfl, rfl, rfl, rfl, rfl, rfl, rfl,
   rfl, rfl, rfl, rfl, rfl, rfl, rfl, rfl, rfl, rfl, rfl, rfl, rfl, rfl⟩

theorem roundtrip_widen (s : F32) (h : s.wfq) : roundtripF64 (widen s) := by
  unfold roundtripF64
  rw [narrow_widen s h.1 h.2]

/-- C2: for every well-behaved provider (one returning well-formed, quiet
binary32 values), every operation of the facade and all inputs, the
double-precision result is exactly representable in single precision:
narrowing the returned value and widening it back yields the same value, so
the facade never synthesizes precision beyond the single-precision result. -/
theorem c2_roundtrip (P : F32Provider) (hP : P.Wf) (x y : F64) (n : Int) :
    RoundTripAll P x y n := by
  obtain ⟨h1, h2, h3, h4, h5, h6, h7, h8, h9, h10, h11, h12, h13, h14, h15, h16,
    h17, h18, h19, h20, h21, h22, h23, h24, h25, h26, h27, h28, h29⟩ :=
    hP (narrow x) (narrow y) n
  exact ⟨roundtrip_widen _ h1, roundtrip_widen _ h2, roundtrip_widen _ h3,
    roundtrip_widen _ h4, roundtrip_widen _ h5, roundtrip_widen _ h6,
    roundtrip_widen _ h7, roundtrip_widen _ h8, roundtrip_widen _ h9,
    roundtrip_widen _ h10, roundtrip_widen _ h11, roundtrip_widen _ h12,
    roundtrip_widen _ h13, roundtrip_widen _ h14, roundtrip_widen _ h15,
    roundtrip_widen _ h16, roundtrip_widen _ h17, roundtrip_widen _ h18,
    roundtrip_widen _ h19, roundtrip_widen _ h20, roundtrip_widen _ h21,
    roundtrip_widen _ h22, roundtrip_widen _ h23, roundtrip_widen _ h24,
    roundtrip_widen _ h25, roundtrip_widen _ h26, roundtrip_widen _ h27,
    roundtrip_widen _ h28, roundtrip_widen _ h29⟩

/-- Witness for C2: the well-behavedness hypothesis holds for the provider
returning positive zero everywhere, and the round-trip conclusion follows at
concrete inputs. -/
theorem zeroProvider_wf : zeroProvider.Wf := by
  intro a b n
  have h : (⟨false, 0, 0⟩ : F32).wfq := by decide
  exact ⟨h, h, h, h, h, h, h, h, h, h, h, h, h, h, h, h, h, h, h, h, h, h, h, h,
    h, h, h, h, h⟩

theorem c2_roundtrip_witness :
    zeroProvider.Wf ∧ RoundTripAll zeroProvider ⟨false, 1023, 0⟩ ⟨true, 0, 0⟩ 3 :=
  ⟨zeroProvider_wf,
   c2_roundtrip zeroProvider zeroProvider_wf ⟨false, 1023, 0⟩ ⟨true, 0, 0⟩ 3⟩

/-- C6: no operation of the facade can fail: every operation is total over
all double-precision inputs and equals the widened provider value with no
validation or rejection by the facade; provider NaN results on illegal
inputs (such as `asin` outside its domain) propagate to the caller, and a
divisor narrowing to zero yields NaN under the spec-modelled provider. -/
theorem c6_no_fault (P : F32Provider) (x y : F64) (n : Int) : NoFaultProp P x y n := by
  refine ⟨rfl, rfl, rfl, rfl, rfl, rfl, rfl, rfl, rfl, rfl, rfl, rfl, rfl, rfl, rfl,
    rfl, rfl, rfl, rfl, rfl, rfl, rfl, rfl, rfl, rfl, rfl, rfl, rfl, rfl,
    ?_, ?_, ?_, ?_⟩
  · exact fun h => widen_nan_of _ h
  · exact fun h => widen_nan_of _ h
  · show (widen (divEuclidF32M (narrow x) (narrow ⟨false, 0, 0⟩))).isNan
    have hz : narrow (⟨false, 0, 0⟩ : F64) = ⟨false, 0, 0⟩ := rfl
    rw [hz]
    have hnan : divEuclidF32M (narrow x) ⟨false, 0, 0⟩ = nan32 := by
      simp only [divEuclidF32M]
      rw [if_neg (fun hcon => hcon.2.2 rfl)]
    rw [hnan]
    exact widen_nan_of nan32 ⟨rfl, by decide⟩
  · show (widen (remEuclidF32M (narrow x) (narrow ⟨false, 0, 0⟩))).isNan
    have hz : narrow (⟨false, 0, 0⟩ : F64) = ⟨false, 0, 0⟩ := rfl
    rw [hz]
    have hnan : remEuclidF32M (narrow x) ⟨false, 0, 0⟩ = nan32 := by
      simp only [remEuclidF32M]
      rw [if_neg (fun hcon => hcon.2.2 rfl)]
    rw [hnan]
    exact widen_nan_of nan32 ⟨rfl, by decide⟩

/-- Witness for C6: at a NaN operand and a zero second operand the
NaN-propagation implications fire with the spec-modelled provider. -/
theorem c6_no_fault_witness :
    NoFaultProp Mprov ⟨false, 2047, 2 ^ 51⟩ ⟨false, 0, 0⟩ 0 ∧
    (Mprov.asin (narrow ⟨false, 2047, 2 ^ 51⟩)).isNan ∧
    (Mprov.div_euclid (narrow ⟨false, 2047, 2 ^ 51⟩) (narrow ⟨false, 0, 0⟩)).isNan :=
  ⟨c6_no_fault Mprov ⟨false, 2047, 2 ^ 51⟩ ⟨false, 0, 0⟩ 0, by decide, by decide⟩

/-- C7: for any double-precision value exactly representable in single
precision (the widening of a well-formed, non-NaN binary32 value),
narrowing followed by widening is a no-op. -/
theorem c7_roundtrip_noop (x : F64)
    (h : ∃ s : F32, s.wf ∧ ¬ s.isNan ∧ widen s = x) : widen (narrow x) = x := by
  obtain ⟨s, hwf, hnn, hx⟩ := h
  subst hx
  rw [narrow_widen s hwf (fun hn => absurd hn hnn)]

/-- Witness for C7: the value 1.5 (exactly representable in single
precision) is unchanged by the narrow-then-widen round trip. -/
theorem c7_roundtrip_noop_witness :
    (∃ s : F32, s.wf ∧ ¬ s.isNan ∧ widen s = ⟨false, 1023, 2 ^ 51⟩) ∧
    widen (narrow ⟨false, 1023, 2 ^ 51⟩) = ⟨false, 1023, 2 ^ 51⟩ :=
  ⟨⟨⟨false, 127, 2 ^ 22⟩, by decide, by decide, by decide⟩,
   c7_roundtrip_noop _ ⟨⟨false, 127, 2 ^ 22⟩, by decide, by decide, by decide⟩⟩

/-- C8: for every provider, every double-precision value and every signed
integer exponent, `powi` passes the exponent to the single-precision
provider unchanged (no narrowing or conversion of the exponent): the result
is the widening of the provider's `powi` at the narrowed value and the
original exponent. -/
theorem c8_powi_exponent (P : F32Provider) (x : F64) (n : Int) :
    F64Ext.powi P x n = widen (P.powi (narrow x) n) ∧
    F64Ext.powi P x n = specNarrowPowi P.powi x n :=
  ⟨rfl, rfl⟩

/-- C3 (amended): for every double-precision value x that is exactly
representable in single precision (the widening of a well-formed non-NaN
binary32 value) and every double-precision s (including negative zero),
`copysign(x, s)` returns the value with magnitude exactly the magnitude of x
and the sign of s. -/
theorem c3_sign_transfer (x y : F64) (s : F32) (hwf : s.wf) (hnn : ¬ s.isNan)
    (hx : widen s = x) :
    (F64Ext.copysign Mprov x y).sign = y.sign ∧
    |(F64Ext.copysign Mprov x y).toRat| = |x.toRat| ∧
    F64Ext.copysign Mprov x y = ⟨y.sign, x.ex, x.frac⟩ := by
  subst hx
  have hnar : narrow (widen s) = s := narrow_widen s hwf (fun h => absurd h hnn)
  have heq : F64Ext.copysign Mprov (widen s) y = widen ⟨y.sign, s.ex, s.frac⟩ := by
    show widen (copysignF32M (narrow (widen s)) (narrow y)) = _
    rw [hnar]
    show widen ⟨(narrow y).sign, s.ex, s.frac⟩ = _
    rw [narrow_sign]
  have hcongr := widen_congr_sign y.sign s
  refine ⟨?_, ?_, ?_⟩
  · rw [heq, widen_sign]
  · rw [heq, hcongr]
    generalize widen s = W
    obtain ⟨c, E, F⟩ := W
    exact abs_toRat_sign y.sign c E F
  · rw [heq]
    exact hcongr

/-- Witness for C3: copying the sign of negative zero onto -1.0 (exactly
representable) gives a negative result of magnitude one. -/
theorem c3_sign_transfer_witness :
    ((⟨true, 127, 0⟩ : F32).wf ∧ ¬ (⟨true, 127, 0⟩ : F32).isNan ∧
      widen ⟨true, 127, 0⟩ = ⟨true, 1023, 0⟩) ∧
    ((F64Ext.copysign Mprov ⟨true, 1023, 0⟩ ⟨true, 0, 0⟩).sign =
        (⟨true, 0, 0⟩ : F64).sign ∧
      |(F64Ext.copysign Mprov ⟨true, 1023, 0⟩ ⟨true, 0, 0⟩).toRat| =
        |(⟨true, 1023, 0⟩ : F64).toRat| ∧
      F64Ext.copysign Mprov ⟨true, 1023, 0⟩ ⟨true, 0, 0⟩ =
        ⟨(⟨true, 0, 0⟩ : F64).sign, (⟨true, 1023, 0⟩ : F64).ex,
          (⟨true, 1023, 0⟩ : F64).frac⟩) :=
  ⟨⟨by decide, by decide, by decide⟩,
   c3_sign_transfer ⟨true, 1023, 0⟩ ⟨true, 0, 0⟩ ⟨true, 127, 0⟩
     (by decide) (by decide) (by decide)⟩

/-- Counterexample to C3 as stated: x = 1 + 2^(-30) is finite, but
`copysign(x, 1.0)` returns 1.0, whose magnitude is not the magnitude of x:
the facade narrows x and drops low mantissa bits. -/
theorem c3_counterexample :
    (⟨false, 1023, 2 ^ 22⟩ : F64).isFinite ∧
    F64Ext.copysign Mprov ⟨false, 1023, 2 ^ 22⟩ ⟨false, 1023, 0⟩ ≠
      ⟨(⟨false, 1023, 0⟩ : F64).sign, (⟨false, 1023, 2 ^ 22⟩ : F64).ex,
        (⟨false, 1023, 2 ^ 22⟩ : F64).frac⟩ ∧
    |(F64Ext.copysign Mprov ⟨false, 1023, 2 ^ 22⟩ ⟨false, 1023, 0⟩).toRat| ≠
      |(⟨false, 1023, 2 ^ 22⟩ : F64).toRat| := by
  refine ⟨by decide, by decide, ?_⟩
  have hres : F64Ext.copysign Mprov ⟨false, 1023, 2 ^ 22⟩ ⟨false, 1023, 0⟩ =
      ⟨false, 1023, 0⟩ := by decide
  rw [hres]
  rw [abs_of_nonneg (toRat_nonneg _ rfl), abs_of_nonneg (toRat_nonneg _ rfl)]
  exact ne_of_lt (toRat_lt_frac 1023 0 (2 ^ 22) (by norm_num))

/-- C4 (amended): for every double-precision x exactly representable in
single precision, `abs(x)` performs exact sign-stripping: it returns exactly
the absolute value of x, both as a bit pattern and as a numeric value. -/
theorem c4_abs_exact (x : F64) (s : F32) (hwf : s.wf) (hnn : ¬ s.isNan)
    (hx : widen s = x) :
    F64Ext.abs Mprov x = F64.absExact x ∧ (F64Ext.abs Mprov x).toRat = |x.toRat| := by
  subst hx
  have hnar : narrow (widen s) = s := narrow_widen s hwf (fun h => absurd h hnn)
  have heq : F64Ext.abs Mprov (widen s) = widen ⟨false, s.ex, s.frac⟩ := by
    show widen (absF32M (narrow (widen s))) = _
    rw [hnar]
    rfl
  have h2 : widen ⟨false, s.ex, s.frac⟩ = F64.absExact (widen s) := widen_congr_sign false s
  refine ⟨by rw [heq, h2], ?_⟩
  rw [heq, h2, toRat_absExact]

/-- Witness for C4: the absolute value of -1.0 (exactly representable) is
exactly 1.0. -/
theorem c4_abs_exact_witness :
    ((⟨true, 127, 0⟩ : F32).wf ∧ ¬ (⟨true, 127, 0⟩ : F32).isNan ∧
      widen ⟨true, 127, 0⟩ = ⟨true, 1023, 0⟩) ∧
    (F64Ext.abs Mprov ⟨true, 1023, 0⟩ = F64.absExact ⟨true, 1023, 0⟩ ∧
      (F64Ext.abs Mprov ⟨true, 1023, 0⟩).toRat = |(⟨true, 1023, 0⟩ : F64).toRat|) :=
  ⟨⟨by decide, by decide, by decide⟩,
   c4_abs_exact ⟨true, 1023, 0⟩ ⟨true, 127, 0⟩ (by decide) (by decide) (by decide)⟩

/-- Counterexample to C4 as stated: for x = 1 + 2^(-30), `abs(x)` returns
1.0, not the absolute value of x: the facade narrows x and drops low
mantissa bits. -/
theorem c4_counterexample :
    F64Ext.abs Mprov ⟨false, 1023, 2 ^ 22⟩ ≠ F64.absExact ⟨false, 1023, 2 ^ 22⟩ ∧
    (F64Ext.abs Mprov ⟨false, 1023, 2 ^ 22⟩).toRat ≠ |(⟨false, 1023, 2 ^ 22⟩ : F64).toRat| := by
  refine ⟨by decide, ?_⟩
  have hres : F64Ext.abs Mprov ⟨false, 1023, 2 ^ 22⟩ = ⟨false, 1023, 0⟩ := by decide
  rw [hres, ← toRat_absExact]
  show F64.toRat ⟨false, 1023, 0⟩ ≠ F64.toRat ⟨false, 1023, 2 ^ 22⟩
  exact ne_of_lt (toRat_lt_frac 1023 0 (2 ^ 22) (by norm_num))

/-- C5 (amended): for operands whose narrowed single-precision values are
finite with a nonzero narrowed divisor, the spec-modelled Euclidean
operations satisfy: an exact integer quotient and exact least nonnegative
remainder exist with quotient * divisor + remainder = dividend on the
narrowed values and 0 <= remainder < |divisor|; `div_euclid` and
`rem_euclid` return exactly the correctly-rounded widenings of these exact
values (so the identity holds up to the narrowing and widening conversions);
and the returned remainder is nonnegative.  For a divisor that is nonzero
in double precision but narrows to zero, the result is NaN instead (see the
counterexample), which is what forces the amendment. -/
theorem c5_euclidean (a b : F64) (h1 : (narrow a).isFinite)
    (h2 : (narrow b).isFinite) (h3 : (narrow b).sig ≠ 0) : EuclidSpec a b := by
  have hguard : (narrow a).isFinite ∧ (narrow b).isFinite ∧ (narrow b).sig ≠ 0 :=
    ⟨h1, h2, h3⟩
  have hdiv : F64Ext.div_euclid Mprov a b =
      widen (roundDyadicF32 (decide (euQ (narrow a) (narrow b) < 0))
        (euQ (narrow a) (narrow b)).natAbs 0) := by
    show widen (divEuclidF32M (narrow a) (narrow b)) = _
    simp only [divEuclidF32M]
    rw [if_pos hguard]
  have hrem : F64Ext.rem_euclid Mprov a b =
      widen (roundDyadicF32 false (euR (narrow a) (narrow b)).toNat
        (euE (narrow a) (narrow b))) := by
    show widen (remEuclidF32M (narrow a) (narrow b)) = _
    simp only [remEuclidF32M]
    rw [if_pos hguard]
  have hsgn : (F64Ext.rem_euclid Mprov a b).sign = false := by
    rw [hrem, widen_sign, roundDyadicF32_sign]
  refine ⟨euR_nonneg _ _ h3, euclid_identity _ _, euR_lt _ _ h3, hdiv, hrem, hsgn, ?_, ?_⟩
  · rw [hrem]
    exact widen_not_nan _ (roundDyadicF32_wf _ _ _) (roundDyadicF32_not_nan _ _ _)
  · exact toRat_nonneg _ hsgn

/-- Witness for C5: dividing 7.0 by 2.0 satisfies the Euclidean contract. -/
theorem c5_euclidean_witness :
    ((narrow ⟨false, 1025, 3 * 2 ^ 50⟩).isFinite ∧ (narrow ⟨false, 1024, 0⟩).isFinite ∧
      (narrow ⟨false, 1024, 0⟩).sig ≠ 0) ∧
    EuclidSpec ⟨false, 1025, 3 * 2 ^ 50⟩ ⟨false, 1024, 0⟩ :=
  ⟨⟨by decide, by decide, by decide⟩,
   c5_euclidean ⟨false, 1025, 3 * 2 ^ 50⟩ ⟨false, 1024, 0⟩
     (by decide) (by decide) (by decide)⟩

/-- Counterexample to C5 as stated: other = 2^(-200) is finite and nonzero,
yet `rem_euclid(0.0, other)` is NaN (the divisor narrows to zero and the
provider propagates NaN), so the remainder is not greater than or equal to
zero. -/
theorem c5_counterexample :
    (⟨false, 823, 0⟩ : F64).isFinite ∧ (⟨false, 823, 0⟩ : F64).toRat ≠ 0 ∧
    (F64Ext.rem_euclid Mprov ⟨false, 0, 0⟩ ⟨false, 823, 0⟩).isNan ∧
    ¬ F64.ge0 (F64Ext.rem_euclid Mprov ⟨false, 0, 0⟩ ⟨false, 823, 0⟩) := by
  refine ⟨by decide, toRat_ne_zero _ (by decide), by decide, ?_⟩
  intro hge
  exact hge.1 (by decide)

/-- C10 (amended): for every finite double-precision input whose magnitude
is at least 2^128 - 2^103 (the round-to-nearest overflow threshold of the
narrowing conversion), narrowing overflows to infinity of the same sign
before the provider is called, so every operation — including the
operations documented as exact, such as abs and trunc — computes on
infinity rather than on the input's value: abs returns positive infinity,
not the absolute value of the input, and trunc returns the signed
infinity.  An input whose magnitude merely exceeds the largest finite
single-precision value can instead round down to that largest finite
value, as maxF32 + 2^80 does (see the counterexample), which is what
forces the amendment. -/
theorem c10_overflow (x : F64) (hwf : x.wf) (hfin : x.isFinite)
    (hbig : 1151 ≤ x.ex ∨ (x.ex = 1150 ∧ 2 ^ 52 - 2 ^ 28 ≤ x.frac)) :
    narrow x = ⟨x.sign, 255, 0⟩ ∧
    (2:ℚ) ^ (128:Int) - (2:ℚ) ^ (103:Int) ≤ |x.toRat| ∧
    F64Ext.abs Mprov x = ⟨false, 2047, 0⟩ ∧
    F64Ext.trunc Mprov x = ⟨x.sign, 2047, 0⟩ ∧
    F64Ext.abs Mprov x ≠ F64.absExact x := by
  have hnar : narrow x = ⟨x.sign, 255, 0⟩ := by
    rcases hbig with hb | ⟨hb1, hb2⟩
    · exact narrow_overflow x hwf hfin hb
    · exact narrow_overflow_band x hwf hb1 hb2
  have habs : F64Ext.abs Mprov x = ⟨false, 2047, 0⟩ := by
    show widen (absF32M (narrow x)) = _
    rw [hnar]
    show widen ⟨false, 255, 0⟩ = _
    rw [widen_mk_255]
    norm_num
  have htr : F64Ext.trunc Mprov x = ⟨x.sign, 2047, 0⟩ := by
    show widen (truncF32M (narrow x)) = _
    rw [hnar]
    have ht : truncF32M ⟨x.sign, 255, 0⟩ = ⟨x.sign, 255, 0⟩ := by
      simp [truncF32M]
    rw [ht, widen_mk_255]
    norm_num
  refine ⟨hnar, ?_, habs, htr, ?_⟩
  · rw [← toRat_absExact, toRat_eq]
    have habse : (F64.absExact x).sign = false := rfl
    rw [habse, if_neg Bool.false_ne_true]
    rcases hbig with hb | ⟨hb1, hb2⟩
    · have hsig : ((2:ℚ)) ^ (52:Nat) ≤ ((F64.absExact x).sig : ℚ) := by
        have hn : 2 ^ 52 ≤ (F64.absExact x).sig := by
          simp only [F64.absExact, F64.sig]
          split_ifs with h
          · omega
          · omega
        calc ((2:ℚ)) ^ (52:Nat) = ((2 ^ 52 : Nat) : ℚ) := by norm_num
        _ ≤ ((F64.absExact x).sig : ℚ) := by exact_mod_cast hn
      have hexp : (2:ℚ) ^ (76:Int) ≤ (2:ℚ) ^ (F64.absExact x).expLsb := by
        apply zpow_le_zpow_right₀ (by norm_num)
        simp only [F64.absExact, F64.expLsb]
        split_ifs with h
        · omega
        · omega
      have h128 : (2:ℚ) ^ (128:Int) = (2:ℚ) ^ (52:Nat) * (2:ℚ) ^ (76:Int) := by
        rw [show ((2:ℚ)) ^ (52:Nat) = (2:ℚ) ^ ((52:Nat):Int) from (zpow_natCast 2 52).symm]
        rw [← zpow_add₀ (by norm_num : (2:ℚ) ≠ 0)]
        norm_num
      have hval : (2:ℚ) ^ (128:Int) ≤
          ((F64.absExact x).sig : ℚ) * (2:ℚ) ^ (F64.absExact x).expLsb := by
        rw [h128]
        exact mul_le_mul hsig hexp (by positivity) (Nat.cast_nonneg _)
      have h2103 : (0:ℚ) ≤ (2:ℚ) ^ (103:Int) := by positivity
      calc (2:ℚ) ^ (128:Int) - (2:ℚ) ^ (103:Int) ≤ (2:ℚ) ^ (128:Int) :=
        sub_le_self _ h2103
      _ ≤ ((F64.absExact x).sig : ℚ) * (2:ℚ) ^ (F64.absExact x).expLsb := hval
    · have hsig : ((2 ^ 53 - 2 ^ 28 : Nat) : ℚ) ≤ ((F64.absExact x).sig : ℚ) := by
        have hn : 2 ^ 53 - 2 ^ 28 ≤ (F64.absExact x).sig := by
          simp only [F64.absExact, F64.sig]
          split_ifs with h
          · omega
          · omega
        exact_mod_cast hn
      have hexp : (F64.absExact x).expLsb = 75 := by
        simp only [F64.absExact, F64.expLsb]
        rw [if_neg (by omega : ¬ x.ex = 0), hb1]
        norm_num
      rw [hexp]
      have hkey : (2:ℚ) ^ (128:Int) - (2:ℚ) ^ (103:Int) =
          ((2 ^ 53 - 2 ^ 28 : Nat) : ℚ) * (2:ℚ) ^ (75:Int) := by
        have e1 : (2:ℚ) ^ (128:Int) = (2:ℚ) ^ (53:Int) * (2:ℚ) ^ (75:Int) := by
          rw [← zpow_add₀ (by norm_num : (2:ℚ) ≠ 0)]
          norm_num
        have e2 : (2:ℚ) ^ (103:Int) = (2:ℚ) ^ (28:Int) * (2:ℚ) ^ (75:Int) := by
          rw [← zpow_add₀ (by norm_num : (2:ℚ) ≠ 0)]
          norm_num
        rw [e1, e2, ← sub_mul]
        congr 1
        rw [Nat.cast_sub (by norm_num : (2:Nat) ^ 28 ≤ 2 ^ 53)]
        push_cast
        norm_num
      rw [hkey]
      exact mul_le_mul_of_nonneg_right hsig (by positivity)
  · rw [habs]
    intro hcon
    have hex2 := congrArg F64.ex hcon
    simp only [F64.absExact] at hex2
    exact hfin hex2.symm

/-- Witness for C10: the input 2^128 - 2^103, the exact overflow threshold
(a round-to-nearest tie whose rounded-up neighbour is 2^128), is finite,
narrows to infinity, and its abs is positive infinity rather than its
absolute value. -/
theorem c10_overflow_witness :
    ((⟨false, 1150, 2 ^ 52 - 2 ^ 28⟩ : F64).wf ∧
      (⟨false, 1150, 2 ^ 52 - 2 ^ 28⟩ : F64).isFinite ∧
      (1151 ≤ (⟨false, 1150, 2 ^ 52 - 2 ^ 28⟩ : F64).ex ∨
        ((⟨false, 1150, 2 ^ 52 - 2 ^ 28⟩ : F64).ex = 1150 ∧
          2 ^ 52 - 2 ^ 28 ≤ (⟨false, 1150, 2 ^ 52 - 2 ^ 28⟩ : F64).frac))) ∧
    (narrow ⟨false, 1150, 2 ^ 52 - 2 ^ 28⟩ =
        ⟨(⟨false, 1150, 2 ^ 52 - 2 ^ 28⟩ : F64).sign, 255, 0⟩ ∧
      (2:ℚ) ^ (128:Int) - (2:ℚ) ^ (103:Int) ≤
        |(⟨false, 1150, 2 ^ 52 - 2 ^ 28⟩ : F64).toRat| ∧
      F64Ext.abs Mprov ⟨false, 1150, 2 ^ 52 - 2 ^ 28⟩ = ⟨false, 2047, 0⟩ ∧
      F64Ext.trunc Mprov ⟨false, 1150, 2 ^ 52 - 2 ^ 28⟩ =
        ⟨(⟨false, 1150, 2 ^ 52 - 2 ^ 28⟩ : F64).sign, 2047, 0⟩ ∧
      F64Ext.abs Mprov ⟨false, 1150, 2 ^ 52 - 2 ^ 28⟩ ≠
        F64.absExact ⟨false, 1150, 2 ^ 52 - 2 ^ 28⟩) :=
  ⟨⟨by decide, by decide, by decide⟩,
   c10_overflow ⟨false, 1150, 2 ^ 52 - 2 ^ 28⟩ (by decide) (by decide) (by decide)⟩

/-- Counterexample to C10 as stated: the finite input maxF32 + 2^80 exceeds
the largest finite single-precision magnitude yet lies strictly below the
overflow threshold 2^128 - 2^103: narrowing rounds it down to the largest
finite single-precision value instead of overflowing, the narrowed value is
not infinite, and abs does not return infinity. -/
theorem c10_counterexample :
    (⟨false, 1150, 2 ^ 52 - 2 ^ 29 + 2 ^ 5⟩ : F64).wf ∧
    (⟨false, 1150, 2 ^ 52 - 2 ^ 29 + 2 ^ 5⟩ : F64).isFinite ∧
    |(widen ⟨false, 254, 2 ^ 23 - 1⟩).toRat| <
      |(⟨false, 1150, 2 ^ 52 - 2 ^ 29 + 2 ^ 5⟩ : F64).toRat| ∧
    (⟨false, 1150, 2 ^ 52 - 2 ^ 29 + 2 ^ 5⟩ : F64).toRat <
      (⟨false, 1150, 2 ^ 52 - 2 ^ 28⟩ : F64).toRat ∧
    narrow ⟨false, 1150, 2 ^ 52 - 2 ^ 29 + 2 ^ 5⟩ = ⟨false, 254, 2 ^ 23 - 1⟩ ∧
    narrow ⟨false, 1150, 2 ^ 52 - 2 ^ 29 + 2 ^ 5⟩ ≠ ⟨false, 255, 0⟩ ∧
    F64Ext.abs Mprov ⟨false, 1150, 2 ^ 52 - 2 ^ 29 + 2 ^ 5⟩ ≠ ⟨false, 2047, 0⟩ := by
  refine ⟨by decide, by decide, ?_,
    toRat_lt_frac 1150 (2 ^ 52 - 2 ^ 29 + 2 ^ 5) (2 ^ 52 - 2 ^ 28) (by norm_num),
    by decide, by decide, by decide⟩
  have hw : widen ⟨false, 254, 2 ^ 23 - 1⟩ = ⟨false, 1150, 2 ^ 52 - 2 ^ 29⟩ := by decide
  rw [hw]
  rw [abs_of_nonneg (toRat_nonneg _ rfl), abs_of_nonneg (toRat_nonneg _ rfl)]
  exact toRat_lt_frac 1150 (2 ^ 52 - 2 ^ 29) (2 ^ 52 - 2 ^ 29 + 2 ^ 5) (by norm_num)
